import Mathlib

/-!
Shallow embedding of golift/cnfgfile's generic recursive substitution engine
(the feature-complete `Parse` variant with depth limit and transforms).

Go runtime values are modelled by the inductive `Value`; machine strings are
Lean `String` (the claims only involve ASCII data, where Go's byte indexing
and Lean's character indexing agree). The Go `map[string]string` output is an
association list updated by `setKey`. The filesystem is a partial function
from paths to file contents; `none` means the file cannot be opened.
Reflection settability (`reflect.Value.CanSet`) is threaded through the walk
as an explicit `settable : Bool` flag, following Go's addressability rules:
dereferencing a pointer yields a settable value, unpacking an interface a
non-settable one, slice elements are always settable, struct fields inherit
the struct's settability, and map values are walked through a fresh settable
copy.
-/

namespace Cnfgfile

/-- Go runtime shapes the engine dispatches on (`reflect.Kind`).
`other` stands for every unsupported kind (numbers, bools, funcs, ...). -/
inductive Value : Type where
  | str (s : String) : Value
  | ptr (v : Option Value) : Value
  | iface (v : Option Value) : Value
  | structV (fields : List (String × Bool × Value)) : Value
  | sliceV (elems : List Value) : Value
  | mapV (entries : List (String × Value)) : Value
  | other : Value

/-- Parse(Opts) defaults, from the source constants. -/
def DefaultPfx : String := "filepath:"

def DefaultMaxSize : Nat := 1024

def DefaultName : String := "Config"

def DefaultMaxDepth : Nat := 200

/-- Opts: the optional input parameters for `Parse`. Zero values mean
"use the default". Function options are `Option`s (Go `nil` = `none`). -/
structure Opts where
  Name : String := ""
  Pfx : String := ""
  NoTrim : Bool := false
  MaxSize : Nat := 0
  MaxDepth : Nat := 0
  TransformPath : Option (String → String) := none
  TransformFile : Option (String → String) := none

/-- The resolved option set carried by the internal `parser` struct.
The mutable walk state lives separately in `PState`. -/
structure Config where
  Name : String
  Pfx : String
  NoTrim : Bool
  MaxSize : Nat
  MaxDepth : Nat
  TransformPath : String → String
  TransformFile : String → String

/-- The mutable fields of the internal `parser` struct. -/
structure PState where
  Output : List (String × String)
  CurrentDepth : Nat
  CurrentElement : String
deriving Repr

/-- Go defaultTransformer passes a string through. -/
def defaultTransformer (str : String) : String := str

/-- Go newParser: resolve user options against the defaults
(`pick` keeps the first non-zero value). -/
def newParser (input : Option Opts) : Config :=
  let dflt : Config :=
    { Name := DefaultName
      Pfx := DefaultPfx
      NoTrim := false
      MaxSize := DefaultMaxSize
      MaxDepth := DefaultMaxDepth
      TransformFile := defaultTransformer
      TransformPath := defaultTransformer }
  match input with
  | none => dflt
  | some i =>
    { Name := if i.Name = "" then dflt.Name else i.Name
      Pfx := if i.Pfx = "" then dflt.Pfx else i.Pfx
      NoTrim := i.NoTrim
      MaxSize := if i.MaxSize = 0 then dflt.MaxSize else i.MaxSize
      MaxDepth := if i.MaxDepth = 0 then dflt.MaxDepth else i.MaxDepth
      TransformPath := i.TransformPath.getD dflt.TransformPath
      TransformFile := i.TransformFile.getD dflt.TransformFile }

/-- The fresh walk state built by `newParser`. -/
def initState (p : Config) : PState :=
  { Output := [], CurrentDepth := 0, CurrentElement := p.Name }

/-- The filesystem: path to file contents; `none` = open fails. -/
def FileSys : Type := String → Option String

/-- Read-failure causes (`fmt.Errorf("opening file: %w", err)`); only open
failures arise for the regular files the model covers. -/
inductive ReadErr : Type where
  | openFailed (path : String) : ReadErr
deriving Repr, DecidableEq

/-- ElemError: the located error wrapping a string-parse failure. -/
structure ElemError where
  Name : String
  File : String
  Inner : ReadErr
deriving Repr, DecidableEq

/-- Whitespace as recognised by Go's `unicode.IsSpace` on the code points
the model covers (`\t \n \v \f \r` space, NEL, NBSP). -/
def isGoSpace (c : Char) : Bool :=
  c.toNat = 9 || c.toNat = 10 || c.toNat = 11 || c.toNat = 12 ||
  c.toNat = 13 || c.toNat = 32 || c.toNat = 133 || c.toNat = 160

/-- Go strings.HasPrefix(s, pre). -/
def hasPfx (s pre : String) : Bool := pre.data.isPrefixOf s.data

/-- Go strings.TrimPrefix(s, pre). -/
def trimPfx (s pre : String) : String :=
  if hasPfx s pre then String.mk (s.data.drop pre.data.length) else s

/-- Go strings.TrimSpace and bytes.TrimSpace. -/
def trimSpace (s : String) : String :=
  String.mk (((s.data.dropWhile isGoSpace).reverse.dropWhile isGoSpace).reverse)

/-- The bounded read: at most `n` bytes of the file's contents. -/
def takeBytes (s : String) (n : Nat) : String := String.mk (s.data.take n)

/-- Go map assignment `m[k] = v` on the association-list model. -/
def setKey : List (String × String) → String → String → List (String × String)
  | [], k, v => [(k, v)]
  | (k0, v0) :: rest, k, v =>
    if k0 = k then (k, v) :: rest else (k0, v0) :: setKey rest k v

/-- Go map lookup `m[k]` on the association-list model. -/
def getKey : List (String × String) → String → Option String
  | [], _ => none
  | (k0, v0) :: rest, k => if k0 = k then some v0 else getKey rest k

/-- Go parser.readFile: open the file (error if absent), read at most
`MaxSize` bytes in one bounded read, then trim unless `NoTrim`. -/
def readFile (p : Config) (fs : FileSys) (filePath : String) :
    Except ReadErr String :=
  match fs filePath with
  | none => Except.error (ReadErr.openFailed filePath)
  | some data =>
    let fileContent := takeBytes data p.MaxSize
    if p.NoTrim then Except.ok fileContent else Except.ok (trimSpace fileContent)

/-- Go parser.parseString: if the string is settable and has the configured
marker, record the trimmed path in the output map, then read the
(path-transformed) file and overwrite the string with the (content-
transformed) result; an unreadable file yields a located `ElemError`. -/
def parseString (p : Config) (fs : FileSys) (value : String)
    (settable : Bool) (name : String) (st : PState) :
    Value × PState × Option ElemError :=
  if !settable || !(hasPfx value p.Pfx) then (Value.str value, st, none)
  else
    let path := trimSpace (trimPfx value p.Pfx)
    let st1 := { st with Output := setKey st.Output name path }
    match readFile p fs (p.TransformPath path) with
    | Except.error e =>
      (Value.str value, st1, some { Name := name, File := path, Inner := e })
    | Except.ok fileContent =>
      (Value.str (p.TransformFile fileContent), st1, none)

/-- Go parser.parseFunc returns a non-nil parse method exactly for these
kinds; `other` is unsupported and ignored. -/
def supportedKind : Value → Bool
  | Value.other => false
  | _ => true

/-- Element name for a slice index: `name[idx+1/total]` (1-based). -/
def sliceName (name : String) (idx total : Nat) : String :=
  name ++ "[" ++ toString (idx + 1) ++ "/" ++ toString total ++ "]"

mutual

/-- Go parser.Parse: bump the depth, stop silently past `MaxDepth`,
dispatch on the element's kind, and restore the depth on every exit. -/
def Walk (p : Config) (fs : FileSys) (element : Value) (settable : Bool)
    (name : String) (st : PState) : Value × PState × Option ElemError :=
  let st := { st with CurrentDepth := st.CurrentDepth + 1 }
  let r : Value × PState × Option ElemError :=
    if st.CurrentDepth > p.MaxDepth then (element, st, none)
    else
      match element with
      | Value.str s => parseString p fs s settable name st
      | Value.ptr none => (element, st, none)
      | Value.ptr (some inner) =>
        let r := Walk p fs inner true name st
        (Value.ptr (some r.1), r.2.1, r.2.2)
      | Value.iface none => (element, st, none)
      | Value.iface (some inner) =>
        let r := Walk p fs inner false name st
        (Value.iface (some r.1), r.2.1, r.2.2)
      | Value.structV fields =>
        let r := structFields p fs fields settable name st
        (Value.structV r.1, r.2.1, r.2.2)
      | Value.sliceV [] => (element, st, none)
      | Value.sliceV (e0 :: rest) =>
        if !supportedKind e0 then (element, st, none)
        else
          let r := sliceElems p fs (e0 :: rest) 0 (e0 :: rest).length name st
          (Value.sliceV r.1, r.2.1, r.2.2)
      | Value.mapV [] => (element, st, none)
      | Value.mapV ((k0, v0) :: rest) =>
        if !supportedKind v0 then (element, st, none)
        else
          let r := mapEntries p fs ((k0, v0) :: rest) name st
          (Value.mapV r.1, r.2.1, r.2.2)
      | Value.other => (element, st, none)
  (r.1, { r.2.1 with CurrentDepth := r.2.1.CurrentDepth - 1 }, r.2.2)

/-- Go parser.parseStruct loop: fields in declaration order; the element
name is recorded before the export check; unexported fields are skipped;
the first error aborts, leaving later fields unvisited. -/
def structFields (p : Config) (fs : FileSys)
    (fields : List (String × Bool × Value)) (settable : Bool)
    (name : String) (st : PState) :
    List (String × Bool × Value) × PState × Option ElemError :=
  match fields with
  | [] => ([], st, none)
  | (fname, exported, fval) :: rest =>
    let st1 := { st with CurrentElement := name ++ "." ++ fname }
    if exported then
      let r := Walk p fs fval settable (name ++ "." ++ fname) st1
      match r.2.2 with
      | some e => ((fname, exported, r.1) :: rest, r.2.1, some e)
      | none =>
        let r2 := structFields p fs rest settable name r.2.1
        ((fname, exported, r.1) :: r2.1, r2.2.1, r2.2.2)
    else
      let r2 := structFields p fs rest settable name st1
      ((fname, exported, fval) :: r2.1, r2.2.1, r2.2.2)

/-- Go parser.parseSlice loop: indices descend from `length-1` to `0`, so
the tail (higher indices) is processed before the head; element names are
1-based `name[i/len]`; the first error aborts, leaving the head (lower
indices) unvisited. -/
def sliceElems (p : Config) (fs : FileSys) (elems : List Value)
    (idx total : Nat) (name : String) (st : PState) :
    List Value × PState × Option ElemError :=
  match elems with
  | [] => ([], st, none)
  | x :: xs =>
    let r := sliceElems p fs xs (idx + 1) total name st
    match r.2.2 with
    | some e => (x :: r.1, r.2.1, some e)
    | none =>
      let ename := sliceName name idx total
      let st1 := { r.2.1 with CurrentElement := ename }
      let r2 := Walk p fs x true ename st1
      (r2.1 :: r.1, r2.2.1, r2.2.2)

/-- Go parser.parseMap loop: each value is copied (the copy is settable),
walked under `name[key]`, and written back only on success; the first
error aborts, discarding the failed copy and leaving later entries
unvisited. -/
def mapEntries (p : Config) (fs : FileSys) (entries : List (String × Value))
    (name : String) (st : PState) :
    List (String × Value) × PState × Option ElemError :=
  match entries with
  | [] => ([], st, none)
  | (key, v) :: rest =>
    let ename := name ++ "[" ++ key ++ "]"
    let st1 := { st with CurrentElement := ename }
    let r := Walk p fs v true ename st1
    match r.2.2 with
    | some e => ((key, v) :: rest, r.2.1, some e)
    | none =>
      let r2 := mapEntries p fs rest name r.2.1
      ((key, r.1) :: r2.1, r2.2.1, r2.2.2)

end

/-- Fixture: a filesystem with no openable files. -/
def fsNone : FileSys := fun _ => none

/-- Fixture: a filesystem where every path opens to the same short file. -/
def fsAll : FileSys := fun _ => some "zz"

/-- Fixture: every path opens to the test-suite's 21-byte text file. -/
def fsLong : FileSys := fun _ => some "hi, this is a string\n"

/-- Fixture: only the file `/f` exists, holding `X`. -/
def fs7 : FileSys := fun q => if q = "/f" then some "X" else none

/-- Top-level errors: the type-contract rejection or a located element
failure. -/
inductive ParseError : Type where
  | notPtr : ParseError
  | elemErr (e : ElemError) : ParseError
deriving Repr, DecidableEq

/-- Top-level `Parse`: reject non-pointer roots with `ErrNotPtr` (nil
output map), otherwise build a fresh parser from the options and walk the
pointer under the root name, returning the final value, the output map and
the first error. -/
def ParseTop (ptrVal : Value) (opts : Option Opts) (fs : FileSys) :
    Value × Option (List (String × String)) × Option ParseError :=
  match ptrVal with
  | Value.ptr inner =>
    let p := newParser opts
    let r := Walk p fs (Value.ptr inner) false p.Name (initState p)
    (r.1, some r.2.1.Output, r.2.2.map ParseError.elemErr)
  | _ => (ptrVal, none, some ParseError.notPtr)

mutual

/-- Does the value contain, anywhere at any depth (exported or not), a
string carrying the configured marker? -/
def hasPrefixedString (pre : String) : Value → Bool
  | Value.str s => hasPfx s pre
  | Value.ptr none => false
  | Value.ptr (some v) => hasPrefixedString pre v
  | Value.iface none => false
  | Value.iface (some v) => hasPrefixedString pre v
  | Value.structV fields => hpsFields pre fields
  | Value.sliceV elems => hpsElems pre elems
  | Value.mapV entries => hpsEntries pre entries
  | Value.other => false

def hpsFields (pre : String) : List (String × Bool × Value) → Bool
  | [] => false
  | (_, _, v) :: rest => hasPrefixedString pre v || hpsFields pre rest

def hpsElems (pre : String) : List Value → Bool
  | [] => false
  | v :: rest => hasPrefixedString pre v || hpsElems pre rest

def hpsEntries (pre : String) : List (String × Value) → Bool
  | [] => false
  | (_, v) :: rest => hasPrefixedString pre v || hpsEntries pre rest

end

mutual

/-- No walk-visible string within `b` levels of the value carries the
marker: levels are counted exactly as the walk counts them (one per
`Walk` entry, including pointer and interface dereferences), and
unexported struct fields are invisible. -/
def prefixFreeUpTo (pre : String) (b : Nat) (v : Value) : Bool :=
  match b, v with
  | 0, _ => true
  | _ + 1, Value.str s => !(hasPfx s pre)
  | _ + 1, Value.ptr none => true
  | b + 1, Value.ptr (some w) => prefixFreeUpTo pre b w
  | _ + 1, Value.iface none => true
  | b + 1, Value.iface (some w) => prefixFreeUpTo pre b w
  | b + 1, Value.structV fields => pfFields pre b fields
  | b + 1, Value.sliceV elems => pfElems pre b elems
  | b + 1, Value.mapV entries => pfEntries pre b entries
  | _ + 1, Value.other => true

def pfFields (pre : String) (b : Nat) : List (String × Bool × Value) → Bool
  | [] => true
  | (_, exported, v) :: rest =>
    (!exported || prefixFreeUpTo pre b v) && pfFields pre b rest

def pfElems (pre : String) (b : Nat) : List Value → Bool
  | [] => true
  | v :: rest => prefixFreeUpTo pre b v && pfElems pre b rest

def pfEntries (pre : String) (b : Nat) : List (String × Value) → Bool
  | [] => true
  | (_, v) :: rest => prefixFreeUpTo pre b v && pfEntries pre b rest

end


/-! ### Shared invariant lemmas -/

theorem parseString_depth (p : Config) (fs : FileSys) (s : String)
    (settable : Bool) (name : String) (st : PState) :
    (parseString p fs s settable name st).2.1.CurrentDepth = st.CurrentDepth := by
  simp only [parseString]
  split
  · rfl
  · split <;> rfl

theorem parseString_noPfx (p : Config) (fs : FileSys) (s : String)
    (settable : Bool) (name : String) (st : PState)
    (h : hasPfx s p.Pfx = false) :
    parseString p fs s settable name st = (Value.str s, st, none) := by
  simp [parseString, h]

theorem depthInv (p : Config) (fs : FileSys) : ∀ k : Nat,
    (∀ element settable name st, p.MaxDepth ≤ st.CurrentDepth + k →
      (Walk p fs element settable name st).2.1.CurrentDepth = st.CurrentDepth) ∧
    (∀ fields settable name st, p.MaxDepth ≤ st.CurrentDepth + k →
      (structFields p fs fields settable name st).2.1.CurrentDepth = st.CurrentDepth) ∧
    (∀ elems idx total name st, p.MaxDepth ≤ st.CurrentDepth + k →
      (sliceElems p fs elems idx total name st).2.1.CurrentDepth = st.CurrentDepth) ∧
    (∀ entries name st, p.MaxDepth ≤ st.CurrentDepth + k →
      (mapEntries p fs entries name st).2.1.CurrentDepth = st.CurrentDepth) := by
  have loops : ∀ k : Nat,
      (∀ element settable name st, p.MaxDepth ≤ st.CurrentDepth + k →
        (Walk p fs element settable name st).2.1.CurrentDepth = st.CurrentDepth) →
      (∀ fields settable name st, p.MaxDepth ≤ st.CurrentDepth + k →
        (structFields p fs fields settable name st).2.1.CurrentDepth = st.CurrentDepth) ∧
      (∀ elems idx total name st, p.MaxDepth ≤ st.CurrentDepth + k →
        (sliceElems p fs elems idx total name st).2.1.CurrentDepth = st.CurrentDepth) ∧
      (∀ entries name st, p.MaxDepth ≤ st.CurrentDepth + k →
        (mapEntries p fs entries name st).2.1.CurrentDepth = st.CurrentDepth) := by
    intro k hW
    refine ⟨?_, ?_, ?_⟩
    · intro fields settable name st h
      induction fields generalizing st with
      | nil => simp [structFields]
      | cons f rest ih =>
        obtain ⟨fname, exported, fval⟩ := f
        cases exported with
        | false => simpa [structFields] using ih { st with CurrentElement := name ++ "." ++ fname } h
        | true =>
          rcases hR : Walk p fs fval settable (name ++ "." ++ fname)
            { st with CurrentElement := name ++ "." ++ fname } with ⟨fval', S, err⟩
          have hr : S.CurrentDepth = st.CurrentDepth := by
            have := hW fval settable (name ++ "." ++ fname)
              { st with CurrentElement := name ++ "." ++ fname } h
            rw [hR] at this; exact this
          cases err with
          | some e => simp [structFields, hR, hr]
          | none =>
            have := ih S (by omega)
            simp [structFields, hR, hr, this]
    · intro elems idx total name st h
      induction elems generalizing idx st with
      | nil => simp [sliceElems]
      | cons x xs ih =>
        rcases hR : sliceElems p fs xs (idx + 1) total name st with ⟨xs', S, err⟩
        have hr : S.CurrentDepth = st.CurrentDepth := by
          have := ih (idx + 1) st h
          rw [hR] at this; exact this
        cases err with
        | some e => simp [sliceElems, hR, hr]
        | none =>
          have hd := hW x true (sliceName name idx total)
            { S with CurrentElement := sliceName name idx total } (by simp; omega)
          simp only [hr] at hd
          simp [sliceElems, hR, hr, hd]
    · intro entries name st h
      induction entries generalizing st with
      | nil => simp [mapEntries]
      | cons e rest ih =>
        obtain ⟨key, v⟩ := e
        rcases hR : Walk p fs v true (name ++ "[" ++ key ++ "]")
          { st with CurrentElement := name ++ "[" ++ key ++ "]" } with ⟨v', S, err⟩
        have hr : S.CurrentDepth = st.CurrentDepth := by
          have := hW v true (name ++ "[" ++ key ++ "]")
            { st with CurrentElement := name ++ "[" ++ key ++ "]" } h
          rw [hR] at this; exact this
        cases err with
        | some er => simp [mapEntries, hR, hr]
        | none =>
          have := ih S (by omega)
          simp [mapEntries, hR, hr, this]
  intro k
  induction k with
  | zero =>
    have hW : ∀ element settable name st, p.MaxDepth ≤ st.CurrentDepth + 0 →
        (Walk p fs element settable name st).2.1.CurrentDepth = st.CurrentDepth := by
      intro element settable name st h
      have hg : st.CurrentDepth + 1 > p.MaxDepth := by omega
      rw [Walk.eq_def]
      simp [hg]
    exact ⟨hW, loops 0 hW⟩
  | succ k ihk =>
    obtain ⟨ihW, ihF, ihS, ihE⟩ := ihk
    have hW : ∀ element settable name st, p.MaxDepth ≤ st.CurrentDepth + (k + 1) →
        (Walk p fs element settable name st).2.1.CurrentDepth = st.CurrentDepth := by
      intro element settable name st h
      by_cases hg : st.CurrentDepth + 1 > p.MaxDepth
      · rw [Walk.eq_def]; simp [hg]
      · cases element with
        | str s => rw [Walk.eq_def]; simp [hg, parseString_depth]
        | ptr v =>
          cases v with
          | none => rw [Walk.eq_def]; simp [hg]
          | some inner =>
            have := ihW inner true name
              { st with CurrentDepth := st.CurrentDepth + 1 } (by simp; omega)
            rw [Walk.eq_def]; simp [hg, this]
        | iface v =>
          cases v with
          | none => rw [Walk.eq_def]; simp [hg]
          | some inner =>
            have := ihW inner false name
              { st with CurrentDepth := st.CurrentDepth + 1 } (by simp; omega)
            rw [Walk.eq_def]; simp [hg, this]
        | structV fields =>
          have := ihF fields settable name
            { st with CurrentDepth := st.CurrentDepth + 1 } (by simp; omega)
          rw [Walk.eq_def]; simp [hg, this]
        | sliceV elems =>
          cases elems with
          | nil => rw [Walk.eq_def]; simp [hg]
          | cons e0 rest =>
            cases hs : supportedKind e0 with
            | false => rw [Walk.eq_def]; simp [hg, hs]
            | true =>
              have := ihS (e0 :: rest) 0 (e0 :: rest).length name
                { st with CurrentDepth := st.CurrentDepth + 1 } (by simp; omega)
              rw [Walk.eq_def]
              simp [hg, hs] at this ⊢
              simp [this]
        | mapV entries =>
          cases entries with
          | nil => rw [Walk.eq_def]; simp [hg]
          | cons e0 rest =>
            obtain ⟨k0, v0⟩ := e0
            cases hs : supportedKind v0 with
            | false => rw [Walk.eq_def]; simp [hg, hs]
            | true =>
              have := ihE ((k0, v0) :: rest) name
                { st with CurrentDepth := st.CurrentDepth + 1 } (by simp; omega)
              rw [Walk.eq_def]
              simp [hg, hs] at this ⊢
              simp [this]
        | other => rw [Walk.eq_def]; simp [hg]
    exact ⟨hW, loops (k + 1) hW⟩

theorem noopInv (p : Config) (fs : FileSys) : ∀ b : Nat,
    (∀ v settable name st, p.MaxDepth ≤ st.CurrentDepth + b →
      prefixFreeUpTo p.Pfx b v = true →
      (Walk p fs v settable name st).1 = v ∧
      (Walk p fs v settable name st).2.1.Output = st.Output ∧
      (Walk p fs v settable name st).2.1.CurrentDepth = st.CurrentDepth ∧
      (Walk p fs v settable name st).2.2 = none) ∧
    (∀ fields settable name st, p.MaxDepth ≤ st.CurrentDepth + b →
      pfFields p.Pfx b fields = true →
      (structFields p fs fields settable name st).1 = fields ∧
      (structFields p fs fields settable name st).2.1.Output = st.Output ∧
      (structFields p fs fields settable name st).2.1.CurrentDepth = st.CurrentDepth ∧
      (structFields p fs fields settable name st).2.2 = none) ∧
    (∀ elems idx total name st, p.MaxDepth ≤ st.CurrentDepth + b →
      pfElems p.Pfx b elems = true →
      (sliceElems p fs elems idx total name st).1 = elems ∧
      (sliceElems p fs elems idx total name st).2.1.Output = st.Output ∧
      (sliceElems p fs elems idx total name st).2.1.CurrentDepth = st.CurrentDepth ∧
      (sliceElems p fs elems idx total name st).2.2 = none) ∧
    (∀ entries name st, p.MaxDepth ≤ st.CurrentDepth + b →
      pfEntries p.Pfx b entries = true →
      (mapEntries p fs entries name st).1 = entries ∧
      (mapEntries p fs entries name st).2.1.Output = st.Output ∧
      (mapEntries p fs entries name st).2.1.CurrentDepth = st.CurrentDepth ∧
      (mapEntries p fs entries name st).2.2 = none) := by
  have loops : ∀ b : Nat,
      (∀ v settable name st, p.MaxDepth ≤ st.CurrentDepth + b →
        prefixFreeUpTo p.Pfx b v = true →
        (Walk p fs v settable name st).1 = v ∧
        (Walk p fs v settable name st).2.1.Output = st.Output ∧
        (Walk p fs v settable name st).2.1.CurrentDepth = st.CurrentDepth ∧
        (Walk p fs v settable name st).2.2 = none) →
      (∀ fields settable name st, p.MaxDepth ≤ st.CurrentDepth + b →
        pfFields p.Pfx b fields = true →
        (structFields p fs fields settable name st).1 = fields ∧
        (structFields p fs fields settable name st).2.1.Output = st.Output ∧
        (structFields p fs fields settable name st).2.1.CurrentDepth = st.CurrentDepth ∧
        (structFields p fs fields settable name st).2.2 = none) ∧
      (∀ elems idx total name st, p.MaxDepth ≤ st.CurrentDepth + b →
        pfElems p.Pfx b elems = true →
        (sliceElems p fs elems idx total name st).1 = elems ∧
        (sliceElems p fs elems idx total name st).2.1.Output = st.Output ∧
        (sliceElems p fs elems idx total name st).2.1.CurrentDepth = st.CurrentDepth ∧
        (sliceElems p fs elems idx total name st).2.2 = none) ∧
      (∀ entries name st, p.MaxDepth ≤ st.CurrentDepth + b →
        pfEntries p.Pfx b entries = true →
        (mapEntries p fs entries name st).1 = entries ∧
        (mapEntries p fs entries name st).2.1.Output = st.Output ∧
        (mapEntries p fs entries name st).2.1.CurrentDepth = st.CurrentDepth ∧
        (mapEntries p fs entries name st).2.2 = none) := by
    intro b hW
    refine ⟨?_, ?_, ?_⟩
    · intro fields settable name st h hp
      induction fields generalizing st with
      | nil => simp [structFields]
      | cons f rest ih =>
        obtain ⟨fname, exported, fval⟩ := f
        cases exported with
        | false =>
          simp only [pfFields, Bool.not_false, Bool.true_or, Bool.true_and] at hp
          have hrec := ih { st with CurrentElement := name ++ "." ++ fname } h hp
          simpa [structFields] using hrec
        | true =>
          simp only [pfFields, Bool.not_true, Bool.false_or, Bool.and_eq_true] at hp
          obtain ⟨hpv, hprest⟩ := hp
          obtain ⟨hv, ho, hd, he⟩ := hW fval settable (name ++ "." ++ fname)
            { st with CurrentElement := name ++ "." ++ fname } h hpv
          have hrec := ih ((Walk p fs fval settable (name ++ "." ++ fname)
            { st with CurrentElement := name ++ "." ++ fname }).2.1)
            (by simp only [hd]; simpa using h) hprest
          simp [structFields, hv, ho, hd, he, hrec.1, hrec.2.1, hrec.2.2.1, hrec.2.2.2]
    · intro elems idx total name st h hp
      induction elems generalizing idx st with
      | nil => simp [sliceElems]
      | cons x xs ih =>
        simp only [pfElems, Bool.and_eq_true] at hp
        obtain ⟨hpx, hpxs⟩ := hp
        have hrec := ih (idx + 1) st h hpxs
        obtain ⟨hxs, ho, hd, he⟩ := hrec
        obtain ⟨hv1, ho1, hd1, he1⟩ := hW x true (sliceName name idx total)
          { (sliceElems p fs xs (idx + 1) total name st).2.1 with
            CurrentElement := sliceName name idx total }
          (by simp only [PState.CurrentDepth, hd]; simpa using h) hpx
        simp only [ho, hd] at hv1 ho1 hd1 he1
        simp [sliceElems, hxs, ho, hd, he, hv1, ho1, hd1, he1]
    · intro entries name st h hp
      induction entries generalizing st with
      | nil => simp [mapEntries]
      | cons e rest ih =>
        obtain ⟨key, v⟩ := e
        simp only [pfEntries, Bool.and_eq_true] at hp
        obtain ⟨hpv, hprest⟩ := hp
        obtain ⟨hv, ho, hd, he⟩ := hW v true (name ++ "[" ++ key ++ "]")
          { st with CurrentElement := name ++ "[" ++ key ++ "]" } h hpv
        have hrec := ih ((Walk p fs v true (name ++ "[" ++ key ++ "]")
          { st with CurrentElement := name ++ "[" ++ key ++ "]" }).2.1)
          (by simp only [hd]; simpa using h) hprest
        simp [mapEntries, hv, ho, hd, he, hrec.1, hrec.2.1, hrec.2.2.1, hrec.2.2.2]
  intro b
  induction b with
  | zero =>
    have hW : ∀ v settable name st, p.MaxDepth ≤ st.CurrentDepth + 0 →
        prefixFreeUpTo p.Pfx 0 v = true →
        (Walk p fs v settable name st).1 = v ∧
        (Walk p fs v settable name st).2.1.Output = st.Output ∧
        (Walk p fs v settable name st).2.1.CurrentDepth = st.CurrentDepth ∧
        (Walk p fs v settable name st).2.2 = none := by
      intro v settable name st h _
      have hg : st.CurrentDepth + 1 > p.MaxDepth := by omega
      rw [Walk.eq_def]
      simp [hg]
    exact ⟨hW, loops 0 hW⟩
  | succ b ihb =>
    obtain ⟨ihW, ihF, ihS, ihE⟩ := ihb
    have hW : ∀ v settable name st, p.MaxDepth ≤ st.CurrentDepth + (b + 1) →
        prefixFreeUpTo p.Pfx (b + 1) v = true →
        (Walk p fs v settable name st).1 = v ∧
        (Walk p fs v settable name st).2.1.Output = st.Output ∧
        (Walk p fs v settable name st).2.1.CurrentDepth = st.CurrentDepth ∧
        (Walk p fs v settable name st).2.2 = none := by
      intro v settable name st h hp
      by_cases hg : st.CurrentDepth + 1 > p.MaxDepth
      · rw [Walk.eq_def]; simp [hg]
      · cases v with
        | str s =>
          simp only [prefixFreeUpTo, Bool.not_eq_true'] at hp
          rw [Walk.eq_def]
          simp [hg, parseString_noPfx p fs s settable name _ hp]
        | ptr v =>
          cases v with
          | none => rw [Walk.eq_def]; simp [hg]
          | some inner =>
            simp only [prefixFreeUpTo] at hp
            have := ihW inner true name
              { st with CurrentDepth := st.CurrentDepth + 1 } (by simp; omega) hp
            rw [Walk.eq_def]
            simp [hg, this.1, this.2.1, this.2.2.1, this.2.2.2]
        | iface v =>
          cases v with
          | none => rw [Walk.eq_def]; simp [hg]
          | some inner =>
            simp only [prefixFreeUpTo] at hp
            have := ihW inner false name
              { st with CurrentDepth := st.CurrentDepth + 1 } (by simp; omega) hp
            rw [Walk.eq_def]
            simp [hg, this.1, this.2.1, this.2.2.1, this.2.2.2]
        | structV fields =>
          simp only [prefixFreeUpTo] at hp
          have := ihF fields settable name
            { st with CurrentDepth := st.CurrentDepth + 1 } (by simp; omega) hp
          rw [Walk.eq_def]
          simp [hg, this.1, this.2.1, this.2.2.1, this.2.2.2]
        | sliceV elems =>
          cases elems with
          | nil => rw [Walk.eq_def]; simp [hg]
          | cons e0 rest =>
            cases hs : supportedKind e0 with
            | false => rw [Walk.eq_def]; simp [hg, hs]
            | true =>
              simp only [prefixFreeUpTo] at hp
              have := ihS (e0 :: rest) 0 (e0 :: rest).length name
                { st with CurrentDepth := st.CurrentDepth + 1 } (by simp; omega) hp
              rw [Walk.eq_def]
              simp [hg, hs] at this ⊢
              simp [this.1, this.2.1, this.2.2.1, this.2.2.2]
        | mapV entries =>
          cases entries with
          | nil => rw [Walk.eq_def]; simp [hg]
          | cons e0 rest =>
            obtain ⟨k0, v0⟩ := e0
            cases hs : supportedKind v0 with
            | false => rw [Walk.eq_def]; simp [hg, hs]
            | true =>
              simp only [prefixFreeUpTo] at hp
              have := ihE ((k0, v0) :: rest) name
                { st with CurrentDepth := st.CurrentDepth + 1 } (by simp; omega) hp
              rw [Walk.eq_def]
              simp [hg, hs] at this ⊢
              simp [this.1, this.2.1, this.2.2.1, this.2.2.2]
        | other => rw [Walk.eq_def]; simp [hg]
    exact ⟨hW, loops (b + 1) hW⟩

theorem freeOfNoPrefixedAll (pre : String) : ∀ b : Nat,
    (∀ v, hasPrefixedString pre v = false → prefixFreeUpTo pre b v = true) ∧
    (∀ fields, hpsFields pre fields = false → pfFields pre b fields = true) ∧
    (∀ elems, hpsElems pre elems = false → pfElems pre b elems = true) ∧
    (∀ entries, hpsEntries pre entries = false → pfEntries pre b entries = true) := by
  intro b
  induction b with
  | zero =>
    have hv : ∀ v, hasPrefixedString pre v = false → prefixFreeUpTo pre 0 v = true := by
      intro v _
      simp [prefixFreeUpTo]
    refine ⟨hv, ?_, ?_, ?_⟩
    · intro fields hf
      induction fields with
      | nil => simp [pfFields]
      | cons f rest ih =>
        obtain ⟨fn, ex, v⟩ := f
        simp only [hpsFields, Bool.or_eq_false_iff] at hf
        simp [pfFields, hv v hf.1, ih hf.2]
    · intro elems hf
      induction elems with
      | nil => simp [pfElems]
      | cons v rest ih =>
        simp only [hpsElems, Bool.or_eq_false_iff] at hf
        simp [pfElems, hv v hf.1, ih hf.2]
    · intro entries hf
      induction entries with
      | nil => simp [pfEntries]
      | cons e rest ih =>
        obtain ⟨key, v⟩ := e
        simp only [hpsEntries, Bool.or_eq_false_iff] at hf
        simp [pfEntries, hv v hf.1, ih hf.2]
  | succ b ihb =>
    obtain ⟨ihv, ihF, ihS, ihE⟩ := ihb
    have hv : ∀ v, hasPrefixedString pre v = false → prefixFreeUpTo pre (b + 1) v = true := by
      intro v hf
      cases v with
      | str s => simpa [prefixFreeUpTo, hasPrefixedString] using hf
      | ptr v =>
        cases v with
        | none => simp [prefixFreeUpTo]
        | some inner =>
          simp only [hasPrefixedString] at hf
          simpa [prefixFreeUpTo] using ihv inner hf
      | iface v =>
        cases v with
        | none => simp [prefixFreeUpTo]
        | some inner =>
          simp only [hasPrefixedString] at hf
          simpa [prefixFreeUpTo] using ihv inner hf
      | structV fields =>
        simp only [hasPrefixedString] at hf
        simpa [prefixFreeUpTo] using ihF fields hf
      | sliceV elems =>
        simp only [hasPrefixedString] at hf
        simpa [prefixFreeUpTo] using ihS elems hf
      | mapV entries =>
        simp only [hasPrefixedString] at hf
        simpa [prefixFreeUpTo] using ihE entries hf
      | other => simp [prefixFreeUpTo]
    refine ⟨hv, ?_, ?_, ?_⟩
    · intro fields hf
      induction fields with
      | nil => simp [pfFields]
      | cons f rest ih =>
        obtain ⟨fn, ex, v⟩ := f
        simp only [hpsFields, Bool.or_eq_false_iff] at hf
        simp [pfFields, hv v hf.1, ih hf.2]
    · intro elems hf
      induction elems with
      | nil => simp [pfElems]
      | cons v rest ih =>
        simp only [hpsElems, Bool.or_eq_false_iff] at hf
        simp [pfElems, hv v hf.1, ih hf.2]
    · intro entries hf
      induction entries with
      | nil => simp [pfEntries]
      | cons e rest ih =>
        obtain ⟨key, v⟩ := e
        simp only [hpsEntries, Bool.or_eq_false_iff] at hf
        simp [pfEntries, hv v hf.1, ih hf.2]

end Cnfgfile

namespace Cnfgfile

/-- C1: for every composite root value containing no string with the
configured prefix, Parse/Walk returns an empty output mapping and no
error, and the root value is left completely unchanged. -/
theorem claim1_no_prefixed_strings_noop (inner : Option Value)
    (opts : Option Opts) (fs : FileSys)
    (h : hasPrefixedString (newParser opts).Pfx (Value.ptr inner) = false) :
    ParseTop (Value.ptr inner) opts fs = (Value.ptr inner, some [], none) := by
  have hfree := (freeOfNoPrefixedAll (newParser opts).Pfx (newParser opts).MaxDepth).1 _ h
  have hno := (noopInv (newParser opts) fs (newParser opts).MaxDepth).1 (Value.ptr inner) false
    (newParser opts).Name (initState (newParser opts)) (by simp [initState]) hfree
  obtain ⟨h1, h2, h3, h4⟩ := hno
  simp only [initState] at h1 h2 h4
  simp [ParseTop, initState, h1, h2, h4]

theorem claim1_witness :
    ParseTop (Value.ptr (some (Value.structV [("A", true, Value.str "hello")]))) none fsAll =
      (Value.ptr (some (Value.structV [("A", true, Value.str "hello")])), some [], none) :=
  claim1_no_prefixed_strings_noop _ none fsAll
    (by simp +decide [hasPrefixedString, hpsFields, newParser, DefaultPfx, hasPfx])

/-- C5: the walk's depth counter is incremented on entry and restored on
every exit path (the final depth always equals the entry depth), and a
call entered at the limit returns success immediately, with the element,
state and output untouched and no recursion below it. -/
theorem claim5_depth_bounded :
    (∀ p fs element settable name st,
      (Walk p fs element settable name st).2.1.CurrentDepth = st.CurrentDepth) ∧
    (∀ p fs element settable name st, p.MaxDepth ≤ st.CurrentDepth →
      Walk p fs element settable name st = (element, st, none)) := by
  constructor
  · intro p fs element settable name st
    exact (depthInv p fs p.MaxDepth).1 element settable name st (by omega)
  · intro p fs element settable name st h
    have hg : st.CurrentDepth + 1 > p.MaxDepth := by omega
    rw [Walk.eq_def]
    simp [hg]

theorem claim5_witness :
    Walk (newParser none) fsAll (Value.str "filepath:/x") true "Config"
      { Output := [], CurrentDepth := 200, CurrentElement := "Config" } =
    (Value.str "filepath:/x",
      { Output := [], CurrentDepth := 200, CurrentElement := "Config" }, none) :=
  claim5_depth_bounded.2 (newParser none) fsAll (Value.str "filepath:/x") true "Config"
    { Output := [], CurrentDepth := 200, CurrentElement := "Config" }
    (by simp [newParser, DefaultMaxDepth])

/-- C6: a value whose walk-visible prefixed strings all lie deeper than
`MaxDepth` is returned unchanged with an empty output mapping and no
error: depth-limit truncation is silent. -/
theorem claim6_deep_truncation_silent (inner : Option Value)
    (opts : Option Opts) (fs : FileSys)
    (h : prefixFreeUpTo (newParser opts).Pfx (newParser opts).MaxDepth (Value.ptr inner) = true) :
    ParseTop (Value.ptr inner) opts fs = (Value.ptr inner, some [], none) := by
  have hno := (noopInv (newParser opts) fs (newParser opts).MaxDepth).1 (Value.ptr inner) false
    (newParser opts).Name (initState (newParser opts)) (by simp [initState]) h
  obtain ⟨h1, h2, h3, h4⟩ := hno
  simp only [initState] at h1 h2 h4
  simp [ParseTop, initState, h1, h2, h4]

theorem claim6_witness :
    ParseTop (Value.ptr (some (Value.ptr (some (Value.str "filepath:/x")))))
      (some { MaxDepth := 2 }) fsAll =
    (Value.ptr (some (Value.ptr (some (Value.str "filepath:/x")))),
      some [], none) :=
  claim6_deep_truncation_silent _ (some { MaxDepth := 2 }) fsAll
    (by simp [prefixFreeUpTo, newParser])

end Cnfgfile

namespace Cnfgfile

/-- C8: a bounded read returns at most `MaxSize` bytes with no error (a
larger file is silently truncated to the cap), and with the default trim
policy the result is the whitespace-trimmed first `MaxSize` bytes. -/
theorem claim8_bounded_read (p : Config) (fs : FileSys) (path content : String)
    (hfs : fs path = some content) (htrim : p.NoTrim = false) :
    readFile p fs path = Except.ok (trimSpace (takeBytes content p.MaxSize)) ∧
    (takeBytes content p.MaxSize).data.length ≤ p.MaxSize := by
  constructor
  · simp [readFile, hfs, htrim]
  · simp [takeBytes]

theorem claim8_witness :
    readFile (newParser (some { MaxSize := 8 })) fsLong "/tmp/f" = Except.ok "hi, this" := by
  rw [(claim8_bounded_read (newParser (some { MaxSize := 8 })) fsLong "/tmp/f"
    "hi, this is a string\n" rfl rfl).1]
  exact congrArg Except.ok (by decide)

/-- C9 (amended): a root that is not a reference (pointer) at all is
rejected immediately with `ErrNotPtr` and a nil output map; the
pointer-kind check is the only type-contract test, so a pointer to a
non-composite value is accepted rather than rejected. -/
theorem claim9_non_pointer_rejected (v : Value) (opts : Option Opts) (fs : FileSys)
    (h : ∀ inner, v ≠ Value.ptr inner) :
    ParseTop v opts fs = (v, none, some ParseError.notPtr) := by
  cases v
  case ptr inner => exact absurd rfl (h inner)
  all_goals rfl

theorem claim9_witness :
    ParseTop (Value.str "x") none fsNone = (Value.str "x", none, some ParseError.notPtr) :=
  claim9_non_pointer_rejected (Value.str "x") none fsNone
    (fun _ h => Value.noConfusion h)

/-- C9 counterexample: a pointer to a non-composite value (here an `int`)
is not a mutable reference to a composite value, yet Parse accepts it,
returns no error and produces an (empty) output mapping instead of
failing with the type-contract error. -/
theorem claim9_counterexample :
    ParseTop (Value.ptr (some Value.other)) none fsNone =
      (Value.ptr (some Value.other), some [], none) := by
  simp +decide [ParseTop, initState, newParser, Walk, DefaultMaxDepth]

/-- C10: a prefixed string held in non-settable storage is skipped before
anything happens: for every filesystem, no output entry is recorded, no
error is raised and the value is unchanged — both at the string parser
itself and when the string is reached through an interface (whose
contents are read-only). -/
theorem claim10_unsettable_skipped (p : Config) (fs : FileSys) (value : String)
    (settable : Bool) (name : String) (st : PState)
    (h : hasPfx value p.Pfx = true) :
    parseString p fs value false name st = (Value.str value, st, none) ∧
    Walk p fs (Value.iface (some (Value.str value))) settable name st =
      (Value.iface (some (Value.str value)), st, none) := by
  constructor
  · simp [parseString]
  · have hinner : Walk p fs (Value.str value) false name
        { st with CurrentDepth := st.CurrentDepth + 1 } =
        (Value.str value, { st with CurrentDepth := st.CurrentDepth + 1 }, none) := by
      rw [Walk.eq_def]
      by_cases hg2 : st.CurrentDepth + 1 + 1 > p.MaxDepth
      · simp [hg2]
      · simp [hg2, parseString]
    rw [Walk.eq_def]
    by_cases hg : st.CurrentDepth + 1 > p.MaxDepth
    · simp [hg]
    · simp [hg, hinner]

theorem claim10_witness :
    parseString (newParser none) fsAll "filepath:/tmp/f" false "Config.Address"
      (initState (newParser none)) =
      (Value.str "filepath:/tmp/f", initState (newParser none), none) ∧
    Walk (newParser none) fsAll (Value.iface (some (Value.str "filepath:/tmp/f"))) false
      "Config.Address" (initState (newParser none)) =
      (Value.iface (some (Value.str "filepath:/tmp/f")), initState (newParser none), none) :=
  claim10_unsettable_skipped (newParser none) fsAll "filepath:/tmp/f" false
    "Config.Address" (initState (newParser none)) (by decide)

end Cnfgfile

namespace Cnfgfile

/-- A non-prefixed string is left alone by the walk, at any depth. -/
theorem walkStrNoop (p : Config) (fs : FileSys) (s : String) (settable : Bool)
    (name : String) (st : PState) (h : hasPfx s p.Pfx = false) :
    Walk p fs (Value.str s) settable name st = (Value.str s, st, none) := by
  rw [Walk.eq_def]
  by_cases hg : st.CurrentDepth + 1 > p.MaxDepth
  · simp [hg]
  · simp [hg, parseString_noPfx p fs s settable name _ h]

/-- A settable prefixed string below the depth limit is substituted with
the transformed file contents, and the pre-transform path is recorded. -/
theorem walkStrSubst (p : Config) (fs : FileSys) (v : String)
    (name : String) (st : PState) (content : String)
    (hpfx : hasPfx v p.Pfx = true)
    (hfs : fs (p.TransformPath (trimSpace (trimPfx v p.Pfx))) = some content)
    (hd : st.CurrentDepth + 1 ≤ p.MaxDepth) :
    Walk p fs (Value.str v) true name st =
      (Value.str (p.TransformFile (if p.NoTrim then takeBytes content p.MaxSize
          else trimSpace (takeBytes content p.MaxSize))),
       { st with Output := setKey st.Output name (trimSpace (trimPfx v p.Pfx)) },
       none) := by
  rw [Walk.eq_def]
  have hg : ¬ st.CurrentDepth + 1 > p.MaxDepth := by omega
  by_cases ht : p.NoTrim = true <;> simp [hg, parseString, hpfx, readFile, hfs, ht]

/-- A settable prefixed string whose file cannot be opened produces the
located error, with the output entry already committed. -/
theorem walkStrFail (p : Config) (fs : FileSys) (v : String)
    (name : String) (st : PState)
    (hpfx : hasPfx v p.Pfx = true)
    (hfs : fs (p.TransformPath (trimSpace (trimPfx v p.Pfx))) = none)
    (hd : st.CurrentDepth + 1 ≤ p.MaxDepth) :
    Walk p fs (Value.str v) true name st =
      (Value.str v,
       { st with Output := setKey st.Output name (trimSpace (trimPfx v p.Pfx)) },
       some { Name := name, File := trimSpace (trimPfx v p.Pfx),
              Inner := ReadErr.openFailed
                (p.TransformPath (trimSpace (trimPfx v p.Pfx))) }) := by
  rw [Walk.eq_def]
  have hg : ¬ st.CurrentDepth + 1 > p.MaxDepth := by omega
  simp [hg, parseString, hpfx, readFile, hfs]

/-- C2: a string field holding exactly the prefix followed by a path is
replaced by the (per-policy trimmed, `TransformFile`-applied) contents of
the file opened at the `TransformPath`-transformed path, and the output
maps the `parent.Field` location to the pre-transform trimmed path. -/
theorem claim2_prefixed_field_substituted (p : Config) (fs : FileSys)
    (fname name value content : String) (st : PState)
    (hpfx : hasPfx value p.Pfx = true)
    (hfs : fs (p.TransformPath (trimSpace (trimPfx value p.Pfx))) = some content)
    (hd : st.CurrentDepth + 2 ≤ p.MaxDepth) :
    Walk p fs (Value.structV [(fname, true, Value.str value)]) true name st =
      (Value.structV [(fname, true,
        Value.str (p.TransformFile (if p.NoTrim then takeBytes content p.MaxSize
          else trimSpace (takeBytes content p.MaxSize))))],
       { st with
         Output := setKey st.Output (name ++ "." ++ fname) (trimSpace (trimPfx value p.Pfx)),
         CurrentElement := name ++ "." ++ fname },
       none) := by
  have hinner := walkStrSubst p fs value (name ++ "." ++ fname)
    { st with CurrentDepth := st.CurrentDepth + 1, CurrentElement := name ++ "." ++ fname }
    content hpfx hfs (by simp; omega)
  rw [Walk.eq_def]
  have hg : ¬ st.CurrentDepth + 1 > p.MaxDepth := by omega
  simp [hg, structFields, hinner]

theorem claim2_witness :
    Walk (newParser none) (fun q => if q = "/tmp/f" then some "secret\n" else none)
      (Value.structV [("Address", true, Value.str "filepath:/tmp/f")]) true "Config"
      (initState (newParser none)) =
      (Value.structV [("Address", true, Value.str "secret")],
       { Output := [("Config.Address", "/tmp/f")], CurrentDepth := 0,
         CurrentElement := "Config.Address" }, none) := by
  rw [claim2_prefixed_field_substituted (newParser none)
    (fun q => if q = "/tmp/f" then some "secret\n" else none) "Address" "Config"
    "filepath:/tmp/f" "secret\n" (initState (newParser none)) (by decide) (by decide) (by decide)]
  simp +decide [newParser, initState, setKey, DefaultPfx, DefaultName, defaultTransformer]

/-- C3: a prefixed string naming an unopenable file yields a located
error carrying the `parent.Field` name, the pre-transform path and an
open-failure cause, while the output mapping already holds the
location-to-path entry committed before the read. -/
theorem claim3_missing_file_located_error (p : Config) (fs : FileSys)
    (fname name value : String) (st : PState)
    (hpfx : hasPfx value p.Pfx = true)
    (hfs : fs (p.TransformPath (trimSpace (trimPfx value p.Pfx))) = none)
    (hd : st.CurrentDepth + 2 ≤ p.MaxDepth) :
    Walk p fs (Value.structV [(fname, true, Value.str value)]) true name st =
      (Value.structV [(fname, true, Value.str value)],
       { st with
         Output := setKey st.Output (name ++ "." ++ fname) (trimSpace (trimPfx value p.Pfx)),
         CurrentElement := name ++ "." ++ fname },
       some { Name := name ++ "." ++ fname, File := trimSpace (trimPfx value p.Pfx),
              Inner := ReadErr.openFailed
                (p.TransformPath (trimSpace (trimPfx value p.Pfx))) }) := by
  have hinner := walkStrFail p fs value (name ++ "." ++ fname)
    { st with CurrentDepth := st.CurrentDepth + 1, CurrentElement := name ++ "." ++ fname }
    hpfx hfs (by simp; omega)
  rw [Walk.eq_def]
  have hg : ¬ st.CurrentDepth + 1 > p.MaxDepth := by omega
  simp [hg, structFields, hinner]

theorem claim3_witness :
    Walk (newParser none) fsNone
      (Value.structV [("Name", true, Value.str "filepath:/no/such/file")]) true "MyThing"
      (initState (newParser none)) =
      (Value.structV [("Name", true, Value.str "filepath:/no/such/file")],
       { Output := [("MyThing.Name", "/no/such/file")], CurrentDepth := 0,
         CurrentElement := "MyThing.Name" },
       some { Name := "MyThing.Name", File := "/no/such/file",
              Inner := ReadErr.openFailed "/no/such/file" }) := by
  rw [claim3_missing_file_located_error (newParser none) fsNone "Name" "MyThing"
    "filepath:/no/such/file" (initState (newParser none)) (by decide) (by decide) (by decide)]
  simp +decide [newParser, initState, setKey, DefaultPfx, DefaultName, defaultTransformer]

end Cnfgfile

namespace Cnfgfile

/-- C4: the first error from a recursive call aborts each traversal loop
immediately: the error is returned unchanged together with the state as
populated at the failure, later siblings (struct fields, lower slice
indices, later map entries) are left exactly as they were, and a failed
map copy is not written back. -/
theorem claim4_first_error_aborts (p : Config) (fs : FileSys) :
    (∀ fname fval rest settable name st e,
      (Walk p fs fval settable (name ++ "." ++ fname)
        { st with CurrentElement := name ++ "." ++ fname }).2.2 = some e →
      structFields p fs ((fname, true, fval) :: rest) settable name st =
        ((fname, true, (Walk p fs fval settable (name ++ "." ++ fname)
            { st with CurrentElement := name ++ "." ++ fname }).1) :: rest,
         (Walk p fs fval settable (name ++ "." ++ fname)
            { st with CurrentElement := name ++ "." ++ fname }).2.1, some e)) ∧
    (∀ x xs idx total name st e,
      (sliceElems p fs xs (idx + 1) total name st).2.2 = some e →
      sliceElems p fs (x :: xs) idx total name st =
        (x :: (sliceElems p fs xs (idx + 1) total name st).1,
         (sliceElems p fs xs (idx + 1) total name st).2.1, some e)) ∧
    (∀ key v rest name st e,
      (Walk p fs v true (name ++ "[" ++ key ++ "]")
        { st with CurrentElement := name ++ "[" ++ key ++ "]" }).2.2 = some e →
      mapEntries p fs ((key, v) :: rest) name st =
        ((key, v) :: rest,
         (Walk p fs v true (name ++ "[" ++ key ++ "]")
            { st with CurrentElement := name ++ "[" ++ key ++ "]" }).2.1, some e)) := by
  refine ⟨?_, ?_, ?_⟩
  · intro fname fval rest settable name st e he
    simp [structFields, he]
  · intro x xs idx total name st e he
    simp [sliceElems, he]
  · intro key v rest name st e he
    simp [mapEntries, he]

theorem claim4_witness :
    structFields (newParser none) fsNone
      [("A", true, Value.str "filepath:/m"), ("B", true, Value.str "filepath:/m2")]
      true "Config" (initState (newParser none)) =
      ([("A", true, Value.str "filepath:/m"), ("B", true, Value.str "filepath:/m2")],
       { Output := [("Config.A", "/m")], CurrentDepth := 0, CurrentElement := "Config.A" },
       some { Name := "Config.A", File := "/m", Inner := ReadErr.openFailed "/m" }) := by
  have hfail := walkStrFail (newParser none) fsNone "filepath:/m" "Config.A"
    { initState (newParser none) with CurrentElement := "Config.A" }
    (by decide) (by decide) (by decide)
  rw [(claim4_first_error_aborts (newParser none) fsNone).1 "A" (Value.str "filepath:/m")
    [("B", true, Value.str "filepath:/m2")] true "Config" (initState (newParser none))
    { Name := "Config.A", File := "/m", Inner := ReadErr.openFailed "/m" }
    (by rw [show ("Config" ++ "." ++ "A") = "Config.A" from rfl, hfail]; decide)]
  rw [show ("Config" ++ "." ++ "A") = "Config.A" from rfl, hfail]
  simp +decide [initState, newParser, setKey, DefaultPfx, DefaultName, defaultTransformer]

end Cnfgfile

namespace Cnfgfile

/-- A slice segment of plain (non-prefixed) strings is traversed without
changing the elements, the output or the depth, and without error. -/
theorem sliceStrNoop (p : Config) (fs : FileSys) (xs : List Value) :
    ∀ idx total name st, (∀ u ∈ xs, ∃ s, u = Value.str s ∧ hasPfx s p.Pfx = false) →
      (sliceElems p fs xs idx total name st).1 = xs ∧
      (sliceElems p fs xs idx total name st).2.1.Output = st.Output ∧
      (sliceElems p fs xs idx total name st).2.1.CurrentDepth = st.CurrentDepth ∧
      (sliceElems p fs xs idx total name st).2.2 = none := by
  induction xs with
  | nil => intro idx total name st _; simp [sliceElems]
  | cons x rest ih =>
    intro idx total name st h
    obtain ⟨s, rfl, hs⟩ := h x (by simp)
    obtain ⟨h1, h2, h3, h4⟩ := ih (idx + 1) total name st (fun u hu => h u (by simp [hu]))
    have hw := walkStrNoop p fs s true (sliceName name idx total)
      { (sliceElems p fs rest (idx + 1) total name st).2.1 with
        CurrentElement := sliceName name idx total } hs
    simp only [h2, h3] at hw
    simp [sliceElems, h1, h2, h3, h4, hw]

/-- Traversing a slice `A ++ [prefixed] ++ B` (with `A`, `B` plain
strings) substitutes the prefixed element and records its path under the
1-based name built from its position, leaving depth and the rest alone. -/
theorem sliceSubstAt (p : Config) (fs : FileSys) (B : List Value) (v content : String)
    (hB : ∀ u ∈ B, ∃ s, u = Value.str s ∧ hasPfx s p.Pfx = false)
    (hpfx : hasPfx v p.Pfx = true)
    (hfs : fs (p.TransformPath (trimSpace (trimPfx v p.Pfx))) = some content) :
    ∀ A : List Value, ∀ idx total name st,
      (∀ u ∈ A, ∃ s, u = Value.str s ∧ hasPfx s p.Pfx = false) →
      st.CurrentDepth + 1 ≤ p.MaxDepth →
      (sliceElems p fs (A ++ Value.str v :: B) idx total name st).1 =
        A ++ Value.str (p.TransformFile (if p.NoTrim then takeBytes content p.MaxSize
          else trimSpace (takeBytes content p.MaxSize))) :: B ∧
      (sliceElems p fs (A ++ Value.str v :: B) idx total name st).2.1.Output =
        setKey st.Output (sliceName name (idx + A.length) total)
          (trimSpace (trimPfx v p.Pfx)) ∧
      (sliceElems p fs (A ++ Value.str v :: B) idx total name st).2.1.CurrentDepth =
        st.CurrentDepth ∧
      (sliceElems p fs (A ++ Value.str v :: B) idx total name st).2.2 = none := by
  intro A
  induction A with
  | nil =>
    intro idx total name st _ hdep
    obtain ⟨h1, h2, h3, h4⟩ := sliceStrNoop p fs B (idx + 1) total name st hB
    have hw := walkStrSubst p fs v (sliceName name idx total)
      { (sliceElems p fs B (idx + 1) total name st).2.1 with
        CurrentElement := sliceName name idx total } content hpfx hfs
      (by simp only [PState.CurrentDepth, h3]; omega)
    simp only [h2, h3] at hw
    simp [sliceElems, h1, h2, h3, h4, hw]
  | cons a A' ih =>
    intro idx total name st hA hdep
    obtain ⟨s, rfl, hs⟩ := hA a (by simp)
    obtain ⟨h1, h2, h3, h4⟩ := ih (idx + 1) total name st
      (fun u hu => hA u (by simp [hu])) hdep
    have hidx : idx + 1 + A'.length = idx + (A'.length + 1) := by omega
    rw [hidx] at h2
    have hw := walkStrNoop p fs s true (sliceName name idx total)
      { (sliceElems p fs (A' ++ Value.str v :: B) (idx + 1) total name st).2.1 with
        CurrentElement := sliceName name idx total } hs
    simp only [h2, h3] at hw
    simp [sliceElems, h1, h2, h3, h4, hw]
end Cnfgfile

namespace Cnfgfile

/-- C7: slice elements get 1-based names `parent[i+1/len]` — a prefixed
element preceded by `A` plain strings is recorded under
`parent[A.length+1/len]` — and iteration runs from the last index down,
so when several elements fail, the error surfaced is the highest-index
one and lower-index elements are left unvisited, with no output entry. -/
theorem claim7_slice_descending_naming (p : Config) (fs : FileSys) :
    (∀ (A B : List Value) (v content : String) settable name st,
      (∀ u ∈ A, ∃ s, u = Value.str s ∧ hasPfx s p.Pfx = false) →
      (∀ u ∈ B, ∃ s, u = Value.str s ∧ hasPfx s p.Pfx = false) →
      hasPfx v p.Pfx = true →
      fs (p.TransformPath (trimSpace (trimPfx v p.Pfx))) = some content →
      st.CurrentDepth + 2 ≤ p.MaxDepth →
      (Walk p fs (Value.sliceV (A ++ Value.str v :: B)) settable name st).1 =
        Value.sliceV (A ++ Value.str (p.TransformFile
          (if p.NoTrim then takeBytes content p.MaxSize
           else trimSpace (takeBytes content p.MaxSize))) :: B) ∧
      (Walk p fs (Value.sliceV (A ++ Value.str v :: B)) settable name st).2.1.Output =
        setKey st.Output (sliceName name A.length (A ++ Value.str v :: B).length)
          (trimSpace (trimPfx v p.Pfx)) ∧
      (Walk p fs (Value.sliceV (A ++ Value.str v :: B)) settable name st).2.2 = none) ∧
    (∀ (u w : String) settable name st,
      hasPfx u p.Pfx = true → hasPfx w p.Pfx = true →
      fs (p.TransformPath (trimSpace (trimPfx u p.Pfx))) = none →
      fs (p.TransformPath (trimSpace (trimPfx w p.Pfx))) = none →
      st.CurrentDepth + 2 ≤ p.MaxDepth →
      Walk p fs (Value.sliceV [Value.str u, Value.str w]) settable name st =
        (Value.sliceV [Value.str u, Value.str w],
         { st with
           Output := setKey st.Output (sliceName name 1 2) (trimSpace (trimPfx w p.Pfx)),
           CurrentElement := sliceName name 1 2 },
         some { Name := sliceName name 1 2, File := trimSpace (trimPfx w p.Pfx),
                Inner := ReadErr.openFailed
                  (p.TransformPath (trimSpace (trimPfx w p.Pfx))) })) := by
  constructor
  · intro A B v content settable name st hA hB hpfx hfs hdep
    have hsub := sliceSubstAt p fs B v content hB hpfx hfs A 0
      (A ++ Value.str v :: B).length name
      { st with CurrentDepth := st.CurrentDepth + 1 } hA
      (by simp; omega)
    obtain ⟨h1, h2, h3, h4⟩ := hsub
    have hg : ¬ st.CurrentDepth + 1 > p.MaxDepth := by omega
    cases A with
    | nil =>
      rw [Walk.eq_def]
      simp only [List.nil_append, List.length_cons, List.length_append, List.length_nil,
        Nat.zero_add, Nat.add_zero] at h1 h2 h3 h4 ⊢
      simp [hg, supportedKind, h1, h2, h3, h4]
    | cons a A'' =>
      obtain ⟨s, rfl, hs⟩ := hA a (by simp)
      rw [Walk.eq_def]
      simp only [List.cons_append, List.length_cons, List.length_append, List.length_nil,
        Nat.zero_add, Nat.add_zero] at h1 h2 h3 h4 ⊢
      simp [hg, supportedKind, h1, h2, h3, h4]
  · intro u w settable name st hu hw hfu hfw hdep
    have hg : ¬ st.CurrentDepth + 1 > p.MaxDepth := by omega
    have hfail := walkStrFail p fs w (sliceName name 1 2)
      { Output := st.Output, CurrentDepth := st.CurrentDepth + 1,
        CurrentElement := sliceName name 1 2 } hw hfw (by simp; omega)
    rw [Walk.eq_def]
    simp [hg, supportedKind, sliceElems, hfail]

end Cnfgfile

namespace Cnfgfile

theorem claim7_witness :
    ((Walk (newParser none) fs7
        (Value.sliceV [Value.str "a", Value.str "filepath:/f", Value.str "b"])
        true "List" (initState (newParser none))).2.1.Output = [("List[2/3]", "/f")]) ∧
    Walk (newParser none) fsNone
        (Value.sliceV [Value.str "filepath:/m1", Value.str "filepath:/m2"])
        true "L" (initState (newParser none)) =
      (Value.sliceV [Value.str "filepath:/m1", Value.str "filepath:/m2"],
       { Output := [("L[2/2]", "/m2")], CurrentDepth := 0, CurrentElement := "L[2/2]" },
       some { Name := "L[2/2]", File := "/m2", Inner := ReadErr.openFailed "/m2" }) := by
  constructor
  · have h := (claim7_slice_descending_naming (newParser none) fs7).1
      [Value.str "a"] [Value.str "b"] "filepath:/f" "X" true "List"
      (initState (newParser none))
      (by intro u hu; simp only [List.mem_singleton] at hu; subst hu
          exact ⟨"a", rfl, by decide⟩)
      (by intro u hu; simp only [List.mem_singleton] at hu; subst hu
          exact ⟨"b", rfl, by decide⟩)
      (by decide) (by decide) (by decide)
    have h2 := h.2.1
    simp only [List.cons_append, List.nil_append] at h2
    rw [h2]
    decide
  · rw [(claim7_slice_descending_naming (newParser none) fsNone).2
      "filepath:/m1" "filepath:/m2" true "L" (initState (newParser none))
      (by decide) (by decide) (by decide) (by decide) (by decide)]
    simp +decide [newParser, initState, setKey, sliceName, DefaultPfx, DefaultName,
      defaultTransformer]

end Cnfgfile
